import Mathlib

/-!
Verification of the deployment-calldata encoder in scripts/deploy_token.py.

The embedded core is:
* encode_bytearray (lines 44-81): Cairo ByteArray encoding of a string,
  operating on its UTF-8 bytes, producing word tokens
  [str(num_full_words), full word hex tokens..., pending word, pending len];
* build_constructor_calldata (lines 84-122): constructor calldata assembly;
* the pure word-list assembly of deploy_via_udc (lines 136-146).

Python strings being encoded are modelled by their UTF-8 byte sequences
(List Nat, every entry < 256); emitted word tokens are Lean Strings,
exactly the text tokens the script builds.  Opaque address and profile
strings are carried as Strings; Python int is modelled by Int.
-/

/-- One lowercase hexadecimal digit character (0-9 then a-f), as Python's
bytes.hex() produces. -/
def hexDigitChar (d : Nat) : Char :=
  if d < 10 then Char.ofNat (48 + d) else Char.ofNat (87 + d)

/-- Decimal digit character. -/
def decDigitChar (d : Nat) : Char := Char.ofNat (48 + d)

/-- Python bytes.hex(): two lowercase hex digit characters per byte. -/
def bytesHexChars (bs : List Nat) : List Char :=
  (bs.map (fun b => [hexDigitChar (b / 16), hexDigitChar (b % 16)])).flatten

/-- Python bytes.hex() as a string. -/
def bytesHex (bs : List Nat) : String := String.mk (bytesHexChars bs)

/-- Decimal digit list of a natural number, most significant digit first.
Fuel-indexed structural recursion; any fuel ≥ n computes the digits of n.
Models the digit sequence of Python str(n) for n ≥ 0. -/
def natDecDigitsAux : Nat → Nat → List Nat
  | 0, n => [n]
  | fuel + 1, n => if n < 10 then [n] else natDecDigitsAux fuel (n / 10) ++ [n % 10]

/-- Decimal digits of n, most significant first. -/
def natDecDigits (n : Nat) : List Nat := natDecDigitsAux n n

/-- Python str() on a nonnegative integer: decimal rendering. -/
def natDec (n : Nat) : String := String.mk ((natDecDigits n).map decDigitChar)

/-- Python str() on an integer, possibly negative. -/
def intDec (i : Int) : String :=
  if i < 0 then String.mk ('-' :: (natDecDigits i.natAbs).map decDigitChar)
  else natDec i.toNat

/-- Numeric value of one hex digit character (0-9, lowercase a-f). -/
def hexDigitVal (c : Char) : Nat :=
  if 97 ≤ c.toNat then c.toNat - 87 else c.toNat - 48

/-- Value of a hex digit string, most significant digit first. -/
def parseHexChars (cs : List Char) : Nat :=
  cs.foldl (fun a c => a * 16 + hexDigitVal c) 0

/-- Value of a decimal digit string, most significant digit first. -/
def parseDecChars (cs : List Char) : Nat :=
  cs.foldl (fun a c => a * 10 + (c.toNat - 48)) 0

/-- Integer value a word token denotes: hexadecimal when it carries the 0x
marker the encoder writes in front of hex words, decimal otherwise. -/
def tokenNat (t : String) : Nat :=
  if t.data.take 2 = ['0', 'x'] then parseHexChars (t.data.drop 2)
  else parseDecChars t.data

/-- Big-endian integer value of a byte sequence. -/
def beVal (bs : List Nat) : Nat := bs.foldl (fun a b => a * 256 + b) 0

/-- The len big-endian bytes of a value (most significant first). -/
def beBytes : Nat → Nat → List Nat
  | 0, _ => []
  | len + 1, v => beBytes len (v / 256) ++ [v % 256]

/-- encode_bytearray from scripts/deploy_token.py (lines 44-81), applied to
the UTF-8 bytes of the Python string s.  Emits str(num_full_words), one
0x-prefixed hex token per full 31-byte word, then — when pending bytes
remain — the pending word hex token and str(pending_len), otherwise the two
literal tokens "0" and "0". -/
def encode_bytearray (s_bytes : List Nat) : List String :=
  let num_full_words := s_bytes.length / 31
  let pending_len := s_bytes.length % 31
  let full_words := (List.range num_full_words).map
    (fun i => "0x" ++ bytesHex ((s_bytes.drop (i * 31)).take 31))
  if pending_len > 0 then
    natDec num_full_words ::
      (full_words ++
        ["0x" ++ bytesHex (s_bytes.drop (num_full_words * 31)), natDec pending_len])
  else
    natDec num_full_words :: (full_words ++ ["0", "0"])

/-- The decoding procedure the spec states for an EncodedText: read the
count token, take each of that many full-word tokens as 31 big-endian
bytes, then take pending-length bytes from the pending word token. -/
def decode_bytearray (ts : List String) : Option (List Nat) :=
  match ts with
  | [] => none
  | cnt :: rest =>
    match rest.drop (tokenNat cnt) with
    | [pw, pl] =>
      some ((((rest.take (tokenNat cnt)).map (fun t => beBytes 31 (tokenNat t))).flatten)
        ++ beBytes (tokenNat pl) (tokenNat pw))
    | _ => none

/-- DeploymentConfig from scripts/deploy_token.py (lines 27-41).  Text
fields to be ByteArray-encoded are carried as their UTF-8 bytes; the
optional addresses are Option String, matching Python Optional[str]. -/
structure DeploymentConfig where
  name : List Nat
  symbol : List Nat
  base_uri : List Nat
  royalty_receiver : String
  royalty_fraction : Int
  game_registry_address : Option String
  event_relayer_address : Option String
  class_hash : String
  udc_address : String
  profile : String
  salt : Int
  unique : Bool

/-- Python truthiness of an Optional[str] value, as tested by the script's
if statements: None and the empty string are falsy. -/
def pyTruthy : Option String → Bool
  | none => false
  | some s => s != ""

/-- build_constructor_calldata from scripts/deploy_token.py (lines 84-122):
the three ByteArray encodings, royalty receiver, str(royalty_fraction),
then each optional address as tokens 0, addr when truthy and the single
token 1 otherwise; returns (len(calldata), calldata). -/
def build_constructor_calldata (config : DeploymentConfig) : Nat × List String :=
  let calldata :=
    encode_bytearray config.name
      ++ encode_bytearray config.symbol
      ++ encode_bytearray config.base_uri
      ++ [config.royalty_receiver, intDec config.royalty_fraction]
      ++ (match config.game_registry_address with
          | some a => if a = "" then ["1"] else ["0", a]
          | none => ["1"])
      ++ (match config.event_relayer_address with
          | some a => if a = "" then ["1"] else ["0", a]
          | none => ["1"])
  (calldata.length, calldata)

/-- The UDC deployContract word list assembled by deploy_via_udc
(lines 136-146): [class_hash, str(salt), unique flag, str(calldata_len)]
followed by the constructor calldata. -/
def udc_calldata (config : DeploymentConfig) : List String :=
  let r := build_constructor_calldata config
  [config.class_hash, intDec config.salt,
    if config.unique then "1" else "0", natDec r.1] ++ r.2

/-- OptionalAddress serialization exactly as the spec words it: discriminant
token 0 then the address word when the value is present (non-null), the
single discriminant token 1 when absent (null).  Spec-side definition, kept
for comparison against the code. -/
def encode_optional_spec : Option String → List String
  | some a => ["0", a]
  | none => ["1"]

/-- OptionalAddress serialization as the code actually decides presence: by
Python truthiness, so the empty string also counts as absent. -/
def encode_optional_truthy : Option String → List String
  | some a => if a = "" then ["1"] else ["0", a]
  | none => ["1"]

/-- ConstructorCalldata as the spec words it: encode(name) ++
encode(symbol) ++ encode(base_uri) ++ [royalty_receiver] ++
[royalty_fraction] ++ encode_optional(game_registry) ++
encode_optional(event_relayer), presence meaning non-null. -/
def constructor_calldata_spec (config : DeploymentConfig) : List String :=
  encode_bytearray config.name ++ encode_bytearray config.symbol
    ++ encode_bytearray config.base_uri
    ++ [config.royalty_receiver] ++ [intDec config.royalty_fraction]
    ++ encode_optional_spec config.game_registry_address
    ++ encode_optional_spec config.event_relayer_address

/-! Helper lemmas about digit rendering and token parsing. -/

theorem hexDigitVal_hexDigitChar : ∀ d, d < 16 → hexDigitVal (hexDigitChar d) = d := by
  decide

theorem decDigitChar_toNat : ∀ d, d < 10 → (decDigitChar d).toNat = 48 + d := by
  decide

theorem decDigitChar_ne_x : ∀ d, d < 10 → decDigitChar d ≠ 'x' := by
  decide

theorem natDecDigitsAux_sound (fuel : Nat) : ∀ n, n ≤ fuel →
    (∀ d ∈ natDecDigitsAux fuel n, d < 10) ∧
      List.foldl (fun a d => a * 10 + d) 0 (natDecDigitsAux fuel n) = n := by
  induction fuel with
  | zero =>
    intro n hn
    have h0 : n = 0 := Nat.le_zero.mp hn
    subst h0
    exact ⟨by intro d hd; simp [natDecDigitsAux] at hd; omega, rfl⟩
  | succ fuel ih =>
    intro n hn
    by_cases h : n < 10
    · refine ⟨?_, ?_⟩
      · intro d hd
        simp [natDecDigitsAux, h] at hd
        omega
      · simp [natDecDigitsAux, h, List.foldl]
    · have hdiv : n / 10 ≤ fuel := by
        have := Nat.div_lt_self (by omega : 0 < n) (by omega : 1 < 10)
        omega
      obtain ⟨ih1, ih2⟩ := ih (n / 10) hdiv
      refine ⟨?_, ?_⟩
      · intro d hd
        simp only [natDecDigitsAux, if_neg h, List.mem_append, List.mem_singleton] at hd
        rcases hd with hd | hd
        · exact ih1 d hd
        · omega
      · simp only [natDecDigitsAux, if_neg h]
        rw [List.foldl_append, ih2]
        simp only [List.foldl]
        omega

theorem natDecDigits_lt10 (n : Nat) : ∀ d ∈ natDecDigits n, d < 10 :=
  (natDecDigitsAux_sound n n le_rfl).1

theorem foldl_natDecDigits (n : Nat) :
    List.foldl (fun a d => a * 10 + d) 0 (natDecDigits n) = n :=
  (natDecDigitsAux_sound n n le_rfl).2

theorem natDec_data (n : Nat) : (natDec n).data = (natDecDigits n).map decDigitChar := rfl

theorem foldl_congr_mem {α β : Type} (f g : β → α → β) :
    ∀ (l : List α) (b : β), (∀ x ∈ l, ∀ a, f a x = g a x) → l.foldl f b = l.foldl g b := by
  intro l
  induction l with
  | nil => intro b _; rfl
  | cons x xs ih =>
    intro b h
    simp only [List.foldl_cons]
    rw [h x (List.mem_cons_self x xs), ih]
    intro y hy a
    exact h y (List.mem_cons_of_mem x hy) a

theorem natDec_no_hex_marker (n : Nat) : ¬ (natDec n).data.take 2 = ['0', 'x'] := by
  intro h
  have hx : 'x' ∈ (natDec n).data := by
    have hsub : (natDec n).data.take 2 ⊆ (natDec n).data := (List.take_sublist _ _).subset
    apply hsub
    rw [h]
    simp
  rw [natDec_data] at hx
  simp only [List.mem_map] at hx
  obtain ⟨d, hd, hdx⟩ := hx
  exact decDigitChar_ne_x d (natDecDigits_lt10 n d hd) hdx

theorem tokenNat_natDec (n : Nat) : tokenNat (natDec n) = n := by
  unfold tokenNat
  rw [if_neg (natDec_no_hex_marker n), natDec_data]
  unfold parseDecChars
  rw [List.foldl_map]
  have heq : List.foldl (fun a d => a * 10 + ((decDigitChar d).toNat - 48)) 0 (natDecDigits n)
      = List.foldl (fun a d => a * 10 + d) 0 (natDecDigits n) := by
    apply foldl_congr_mem
    intro x hx a
    rw [decDigitChar_toNat x (natDecDigits_lt10 n x hx)]
    omega
  rw [heq, foldl_natDecDigits]

theorem string_hex_data (s : String) : ("0x" ++ s).data = '0' :: 'x' :: s.data := by
  rw [String.data_append]
  have h0x : "0x".data = ['0', 'x'] := by decide
  rw [h0x]
  rfl

theorem bytesHexChars_cons (b : Nat) (bs : List Nat) :
    bytesHexChars (b :: bs) =
      hexDigitChar (b / 16) :: hexDigitChar (b % 16) :: bytesHexChars bs := by
  simp [bytesHexChars]

theorem foldl_hexChars (bs : List Nat) : ∀ a, (∀ x ∈ bs, x < 256) →
    List.foldl (fun a c => a * 16 + hexDigitVal c) a (bytesHexChars bs) =
      List.foldl (fun a b => a * 256 + b) a bs := by
  induction bs with
  | nil => intro a _; rfl
  | cons b bs ih =>
    intro a h
    have hb : b < 256 := h b (List.mem_cons_self b bs)
    rw [bytesHexChars_cons]
    simp only [List.foldl_cons]
    rw [hexDigitVal_hexDigitChar _ (by omega), hexDigitVal_hexDigitChar _ (by omega)]
    have hstep : (a * 16 + b / 16) * 16 + b % 16 = a * 256 + b := by omega
    rw [hstep]
    exact ih (a * 256 + b) (fun x hx => h x (List.mem_cons_of_mem b hx))

theorem tokenNat_hexToken (bs : List Nat) (h : ∀ x ∈ bs, x < 256) :
    tokenNat ("0x" ++ bytesHex bs) = beVal bs := by
  unfold tokenNat
  rw [string_hex_data]
  have hdata : (bytesHex bs).data = bytesHexChars bs := rfl
  rw [hdata]
  simp only [List.take_succ_cons, List.take_zero, List.drop_succ_cons, List.drop_zero,
    if_true]
  exact foldl_hexChars bs 0 h

theorem tokenNat_zero : tokenNat "0" = 0 := by decide

theorem beVal_append (l : List Nat) (b : Nat) : beVal (l ++ [b]) = beVal l * 256 + b := by
  unfold beVal
  rw [List.foldl_append]
  rfl

theorem beBytes_beVal (l : List Nat) (h : ∀ x ∈ l, x < 256) :
    beBytes l.length (beVal l) = l := by
  induction l using List.reverseRecOn with
  | nil => rfl
  | append_singleton l b ih =>
    have hb : b < 256 := h b (by simp)
    rw [beVal_append]
    have hlen : (l ++ [b]).length = l.length + 1 := by simp
    rw [hlen]
    show beBytes l.length ((beVal l * 256 + b) / 256) ++ [(beVal l * 256 + b) % 256] = l ++ [b]
    have h1 : (beVal l * 256 + b) / 256 = beVal l := by omega
    have h2 : (beVal l * 256 + b) % 256 = b := by omega
    rw [h1, h2, ih (fun x hx => h x (by simp [hx]))]

theorem chunks_flatten_drop {α : Type} (k : Nat) (hk : 0 < k) :
    ∀ (fuel : Nat) (l : List α), l.length ≤ fuel →
      ((List.range (l.length / k)).map (fun i => (l.drop (i * k)).take k)).flatten
          ++ l.drop (l.length / k * k) = l := by
  intro fuel
  induction fuel with
  | zero =>
    intro l hl
    have h0 : l = [] := List.length_eq_zero.mp (Nat.le_zero.mp hl)
    subst h0
    simp
  | succ fuel ih =>
    intro l hl
    by_cases h : l.length < k
    · rw [Nat.div_eq_of_lt h]
      simp
    · push_neg at h
      have hq : l.length / k = (l.drop k).length / k + 1 := by
        rw [List.length_drop, Nat.div_eq_sub_div hk h]
      rw [hq, List.range_succ_eq_map, List.map_cons, List.map_map, List.flatten_cons]
      have hshift : ((fun i => (l.drop (i * k)).take k) ∘ Nat.succ)
          = fun i : Nat => ((l.drop k).drop (i * k)).take k := by
        funext i
        show (l.drop (Nat.succ i * k)).take k = ((l.drop k).drop (i * k)).take k
        rw [List.drop_drop]
        have hik : Nat.succ i * k = k + i * k := by
          simp only [Nat.succ_eq_add_one]
          ring
        rw [hik]
      rw [hshift]
      have hdrop : l.drop (((l.drop k).length / k + 1) * k)
          = (l.drop k).drop ((l.drop k).length / k * k) := by
        rw [List.drop_drop]
        congr 1
        ring
      rw [hdrop]
      have hz : (0 * k) = 0 := by ring
      rw [hz, List.drop_zero]
      rw [List.append_assoc]
      rw [ih (l.drop k) (by rw [List.length_drop]; omega)]
      exact List.take_append_drop k l

/-- C1: for every text, decoding the EncodedText produced by
encode_bytearray — taking each of the full_word_count full words as 31
big-endian bytes, then pending_length bytes from the pending word —
reconstructs exactly the original UTF-8 byte sequence. -/
theorem C1_roundtrip (b : List Nat) (hb : ∀ x ∈ b, x < 256) :
    decode_bytearray (encode_bytearray b) = some b := by
  have hchunk_mem : ∀ (n : Nat) (x : Nat), x ∈ (b.drop n).take 31 → x < 256 := by
    intro n x hx
    exact hb x ((List.drop_sublist n b).subset ((List.take_sublist 31 (b.drop n)).subset hx))
  have hdrop_mem : ∀ (n : Nat) (x : Nat), x ∈ b.drop n → x < 256 := by
    intro n x hx
    exact hb x ((List.drop_sublist n b).subset hx)
  have hlen31 : ∀ i, i < b.length / 31 → ((b.drop (i * 31)).take 31).length = 31 := by
    intro i hi
    rw [List.length_take, List.length_drop]
    have h2 : b.length / 31 * 31 ≤ b.length := Nat.div_mul_le_self _ _
    have h1 : (i + 1) * 31 ≤ b.length / 31 * 31 := Nat.mul_le_mul_right _ hi
    omega
  have hmap : (((List.range (b.length / 31)).map
        (fun i => "0x" ++ bytesHex ((b.drop (i * 31)).take 31))).map
          (fun t => beBytes 31 (tokenNat t)))
      = (List.range (b.length / 31)).map (fun i => (b.drop (i * 31)).take 31) := by
    rw [List.map_map]
    apply List.map_congr_left
    intro i hi
    rw [List.mem_range] at hi
    show beBytes 31 (tokenNat ("0x" ++ bytesHex ((b.drop (i * 31)).take 31)))
        = (b.drop (i * 31)).take 31
    rw [tokenNat_hexToken _ (fun x hx => hchunk_mem _ x hx)]
    have hbv := beBytes_beVal ((b.drop (i * 31)).take 31) (fun x hx => hchunk_mem _ x hx)
    rw [hlen31 i hi] at hbv
    exact hbv
  have hflat := chunks_flatten_drop 31 (by omega) b.length b le_rfl
  have hFWlen : ((List.range (b.length / 31)).map
      (fun i => "0x" ++ bytesHex ((b.drop (i * 31)).take 31))).length = b.length / 31 := by
    simp
  by_cases hpl : b.length % 31 > 0
  · have henc : encode_bytearray b = natDec (b.length / 31) ::
        ((List.range (b.length / 31)).map
            (fun i => "0x" ++ bytesHex ((b.drop (i * 31)).take 31))
          ++ ["0x" ++ bytesHex (b.drop (b.length / 31 * 31)), natDec (b.length % 31)]) := by
      simp only [encode_bytearray]
      rw [if_pos hpl]
    rw [henc]
    have hdrop2 : (((List.range (b.length / 31)).map
          (fun i => "0x" ++ bytesHex ((b.drop (i * 31)).take 31)))
        ++ ["0x" ++ bytesHex (b.drop (b.length / 31 * 31)), natDec (b.length % 31)]).drop
          (tokenNat (natDec (b.length / 31)))
        = ["0x" ++ bytesHex (b.drop (b.length / 31 * 31)), natDec (b.length % 31)] := by
      rw [tokenNat_natDec]
      exact List.drop_left' hFWlen
    have htake2 : (((List.range (b.length / 31)).map
          (fun i => "0x" ++ bytesHex ((b.drop (i * 31)).take 31)))
        ++ ["0x" ++ bytesHex (b.drop (b.length / 31 * 31)), natDec (b.length % 31)]).take
          (tokenNat (natDec (b.length / 31)))
        = (List.range (b.length / 31)).map
            (fun i => "0x" ++ bytesHex ((b.drop (i * 31)).take 31)) := by
      rw [tokenNat_natDec]
      exact List.take_left' hFWlen
    simp only [decode_bytearray, hdrop2, htake2, hmap]
    rw [tokenNat_natDec, tokenNat_hexToken _ (fun x hx => hdrop_mem _ x hx)]
    have hpend := beBytes_beVal (b.drop (b.length / 31 * 31)) (fun x hx => hdrop_mem _ x hx)
    have hpendlen : (b.drop (b.length / 31 * 31)).length = b.length % 31 := by
      rw [List.length_drop]
      omega
    rw [hpendlen] at hpend
    rw [hpend, hflat]
  · have henc : encode_bytearray b = natDec (b.length / 31) ::
        ((List.range (b.length / 31)).map
            (fun i => "0x" ++ bytesHex ((b.drop (i * 31)).take 31))
          ++ ["0", "0"]) := by
      simp only [encode_bytearray]
      rw [if_neg hpl]
    rw [henc]
    have hdrop2 : (((List.range (b.length / 31)).map
          (fun i => "0x" ++ bytesHex ((b.drop (i * 31)).take 31)))
        ++ ["0", "0"]).drop (tokenNat (natDec (b.length / 31))) = ["0", "0"] := by
      rw [tokenNat_natDec]
      exact List.drop_left' hFWlen
    have htake2 : (((List.range (b.length / 31)).map
          (fun i => "0x" ++ bytesHex ((b.drop (i * 31)).take 31)))
        ++ ["0", "0"]).take (tokenNat (natDec (b.length / 31)))
        = (List.range (b.length / 31)).map
            (fun i => "0x" ++ bytesHex ((b.drop (i * 31)).take 31)) := by
      rw [tokenNat_natDec]
      exact List.take_left' hFWlen
    simp only [decode_bytearray, hdrop2, htake2, hmap, tokenNat_zero]
    have hnil : b.drop (b.length / 31 * 31) = [] := by
      have : b.length ≤ b.length / 31 * 31 := by omega
      simp [List.drop_eq_nil_of_le this]
    rw [hnil] at hflat
    simp only [List.append_nil] at hflat
    show some (((List.range (b.length / 31)).map
        (fun i => (b.drop (i * 31)).take 31)).flatten ++ beBytes 0 0) = some b
    simp [hflat, beBytes]

/-- C1 witness at the UTF-8 bytes of hello. -/
theorem C1_roundtrip_witness :
    (∀ x ∈ ([104, 101, 108, 108, 111] : List Nat), x < 256) ∧
      decode_bytearray (encode_bytearray [104, 101, 108, 108, 111]) =
        some [104, 101, 108, 108, 111] :=
  ⟨by decide, C1_roundtrip [104, 101, 108, 108, 111] (by decide)⟩

/-- C2: the serialized word list has length exactly byte_length / 31 + 3,
never fewer than 3, even for the empty text. -/
theorem C2_serialized_length (b : List Nat) :
    (encode_bytearray b).length = b.length / 31 + 3 ∧
      3 ≤ (encode_bytearray b).length := by
  have h : (encode_bytearray b).length = b.length / 31 + 3 := by
    simp only [encode_bytearray]
    by_cases hpl : b.length % 31 > 0
    · rw [if_pos hpl]
      simp only [List.length_cons, List.length_append, List.length_map, List.length_range,
        List.length_nil]
    · rw [if_neg hpl]
      simp only [List.length_cons, List.length_append, List.length_map, List.length_range,
        List.length_nil]
  exact ⟨h, by omega⟩

/-- C4: encode_bytearray follows the chunking algorithm: count token is
byte_length / 31, the i-th full word denotes the big-endian value of bytes
in positions i*31 to i*31+31, the pending word denotes the big-endian value
of the trailing bytes (0 when none), the final token is byte_length % 31,
and full_word_count * 31 + pending_length recovers the byte length. -/
theorem C4_chunking (b : List Nat) (hb : ∀ x ∈ b, x < 256) :
    (encode_bytearray b).map tokenNat =
      b.length / 31 ::
        ((List.range (b.length / 31)).map (fun i => beVal ((b.drop (i * 31)).take 31))
          ++ [beVal (b.drop (b.length / 31 * 31)), b.length % 31]) ∧
    b.length / 31 * 31 + b.length % 31 = b.length := by
  have hchunk_mem : ∀ (n : Nat) (x : Nat), x ∈ (b.drop n).take 31 → x < 256 := by
    intro n x hx
    exact hb x ((List.drop_sublist n b).subset ((List.take_sublist 31 (b.drop n)).subset hx))
  have hdrop_mem : ∀ (n : Nat) (x : Nat), x ∈ b.drop n → x < 256 := by
    intro n x hx
    exact hb x ((List.drop_sublist n b).subset hx)
  have hmapfw : (((List.range (b.length / 31)).map
        (fun i => "0x" ++ bytesHex ((b.drop (i * 31)).take 31))).map tokenNat)
      = (List.range (b.length / 31)).map (fun i => beVal ((b.drop (i * 31)).take 31)) := by
    rw [List.map_map]
    apply List.map_congr_left
    intro i hi
    show tokenNat ("0x" ++ bytesHex ((b.drop (i * 31)).take 31))
        = beVal ((b.drop (i * 31)).take 31)
    exact tokenNat_hexToken _ (fun x hx => hchunk_mem _ x hx)
  refine ⟨?_, by omega⟩
  by_cases hpl : b.length % 31 > 0
  · have henc : encode_bytearray b = natDec (b.length / 31) ::
        ((List.range (b.length / 31)).map
            (fun i => "0x" ++ bytesHex ((b.drop (i * 31)).take 31))
          ++ ["0x" ++ bytesHex (b.drop (b.length / 31 * 31)), natDec (b.length % 31)]) := by
      simp only [encode_bytearray]
      rw [if_pos hpl]
    rw [henc]
    simp only [List.map_cons, List.map_append, List.map_nil, hmapfw]
    rw [tokenNat_natDec, tokenNat_natDec,
      tokenNat_hexToken _ (fun x hx => hdrop_mem _ x hx)]
  · have henc : encode_bytearray b = natDec (b.length / 31) ::
        ((List.range (b.length / 31)).map
            (fun i => "0x" ++ bytesHex ((b.drop (i * 31)).take 31))
          ++ ["0", "0"]) := by
      simp only [encode_bytearray]
      rw [if_neg hpl]
    rw [henc]
    simp only [List.map_cons, List.map_append, List.map_nil, hmapfw]
    rw [tokenNat_natDec, tokenNat_zero]
    have hnil : b.drop (b.length / 31 * 31) = [] := by
      have : b.length ≤ b.length / 31 * 31 := by omega
      simp [List.drop_eq_nil_of_le this]
    rw [hnil]
    have hplz : b.length % 31 = 0 := by omega
    rw [hplz]
    rfl

/-- C4 witness at the UTF-8 bytes of hello. -/
theorem C4_chunking_witness :
    (∀ x ∈ ([104, 101, 108, 108, 111] : List Nat), x < 256) ∧
      ((encode_bytearray [104, 101, 108, 108, 111]).map tokenNat =
        ([104, 101, 108, 108, 111] : List Nat).length / 31 ::
          ((List.range (([104, 101, 108, 108, 111] : List Nat).length / 31)).map
              (fun i => beVal ((([104, 101, 108, 108, 111] : List Nat).drop (i * 31)).take 31))
            ++ [beVal (([104, 101, 108, 108, 111] : List Nat).drop
                  (([104, 101, 108, 108, 111] : List Nat).length / 31 * 31)),
                ([104, 101, 108, 108, 111] : List Nat).length % 31]) ∧
      ([104, 101, 108, 108, 111] : List Nat).length / 31 * 31 +
          ([104, 101, 108, 108, 111] : List Nat).length % 31 =
        ([104, 101, 108, 108, 111] : List Nat).length) :=
  ⟨by decide, C4_chunking [104, 101, 108, 108, 111] (by decide)⟩

/-- C3: the claim is false as stated: for an empty pending word the encoder
emits the decimal token 0, not the hex token 0x0, so encode of the empty
text is not the claimed token list. -/
theorem C3_counterexample : encode_bytearray [] ≠ ["0", "0x0", "0"] := by decide

/-- C3 amended: for every text whose byte length is an exact multiple of 31
the serialized form ends with the two word tokens 0 and 0 (the zero pending
word is rendered as the decimal token 0, not 0x0); in particular encode of
the empty text is exactly the three tokens 0, 0, 0, and encode of a 31-byte
text is exactly the token 1, the 0x-prefixed 31-byte hex word, 0, 0. -/
theorem C3_amended :
    (∀ b : List Nat, b.length % 31 = 0 →
      (encode_bytearray b).drop (b.length / 31 + 1) = ["0", "0"]) ∧
    encode_bytearray [] = ["0", "0", "0"] ∧
    (∀ b : List Nat, b.length = 31 →
      encode_bytearray b = ["1", "0x" ++ bytesHex b, "0", "0"]) := by
  refine ⟨?_, by decide, ?_⟩
  · intro b hb0
    have henc : encode_bytearray b = natDec (b.length / 31) ::
        ((List.range (b.length / 31)).map
            (fun i => "0x" ++ bytesHex ((b.drop (i * 31)).take 31))
          ++ ["0", "0"]) := by
      simp only [encode_bytearray]
      rw [if_neg (by omega)]
    rw [henc, List.drop_succ_cons]
    exact List.drop_left' (by simp)
  · intro b hb31
    have h1 : natDec 1 = "1" := by decide
    have henc : encode_bytearray b
        = natDec 1 :: ((List.range 1).map
            (fun i => "0x" ++ bytesHex ((b.drop (i * 31)).take 31)) ++ ["0", "0"]) := by
      simp only [encode_bytearray, hb31]
      norm_num
    have hr1 : List.range 1 = [0] := by decide
    rw [henc, h1, hr1, List.map_cons, List.map_nil]
    have hchunk : (b.drop (0 * 31)).take 31 = b := by
      rw [Nat.zero_mul, List.drop_zero, ← hb31, List.take_length]
    rw [hchunk]
    rfl

/-- C3 amended witness at a 62-byte text and at a 31-byte text. -/
theorem C3_amended_witness :
    ((List.replicate 62 97 : List Nat).length % 31 = 0 ∧
      (encode_bytearray (List.replicate 62 97)).drop
          ((List.replicate 62 97 : List Nat).length / 31 + 1) = ["0", "0"]) ∧
    ((List.replicate 31 97 : List Nat).length = 31 ∧
      encode_bytearray (List.replicate 31 97) =
        ["1", "0x" ++ bytesHex (List.replicate 31 97), "0", "0"]) :=
  ⟨⟨by decide, C3_amended.1 _ (by decide)⟩, ⟨by decide, C3_amended.2.2 _ (by decide)⟩⟩

/-- C5: the claim is false as stated: a well-typed record whose
game_registry field holds the empty string — a present, non-null value —
is encoded as absent, so the code output differs from the spec
concatenation in which presence means non-null. -/
theorem C5_counterexample :
    (build_constructor_calldata
        ⟨[], [], [], "0xaaa", 0, some "", none, "0x1", "0x2", "default", 0, true⟩).2 ≠
      constructor_calldata_spec
        ⟨[], [], [], "0xaaa", 0, some "", none, "0x1", "0x2", "default", 0, true⟩ := by
  decide

/-- C5 amended: build_constructor_calldata returns exactly the fixed-order
concatenation encode(name) ++ encode(symbol) ++ encode(base_uri) ++
royalty receiver ++ royalty fraction ++ optional encodings, where an
optional address serializes as discriminant 0 plus the address word when
its value is truthy (non-null and non-empty) and as the single discriminant
1 when null or empty; with both optionals falsy the sequence ends in
tokens 1, 1, and with game_registry truthy and event_relayer falsy it ends
in 0, the registry address, 1. -/
theorem C5_amended (cfg : DeploymentConfig) :
    (build_constructor_calldata cfg).2 =
      encode_bytearray cfg.name ++ encode_bytearray cfg.symbol
        ++ encode_bytearray cfg.base_uri
        ++ [cfg.royalty_receiver] ++ [intDec cfg.royalty_fraction]
        ++ encode_optional_truthy cfg.game_registry_address
        ++ encode_optional_truthy cfg.event_relayer_address ∧
    (pyTruthy cfg.game_registry_address = false →
      pyTruthy cfg.event_relayer_address = false →
      ∃ pre, (build_constructor_calldata cfg).2 = pre ++ ["1", "1"]) ∧
    (∀ a : String, cfg.game_registry_address = some a → ¬ a = "" →
      pyTruthy cfg.event_relayer_address = false →
      ∃ pre, (build_constructor_calldata cfg).2 = pre ++ ["0", a, "1"]) := by
  have hfalsy : ∀ o : Option String, pyTruthy o = false →
      encode_optional_truthy o = ["1"] := by
    intro o ho
    cases o with
    | none => rfl
    | some a =>
      simp only [pyTruthy, bne_eq_false_iff_eq] at ho
      simp [encode_optional_truthy, ho]
  have htruthy : ∀ a : String, ¬ a = "" →
      encode_optional_truthy (some a) = ["0", a] := by
    intro a ha
    simp [encode_optional_truthy, ha]
  have hmain : (build_constructor_calldata cfg).2 =
      encode_bytearray cfg.name ++ encode_bytearray cfg.symbol
        ++ encode_bytearray cfg.base_uri
        ++ [cfg.royalty_receiver] ++ [intDec cfg.royalty_fraction]
        ++ encode_optional_truthy cfg.game_registry_address
        ++ encode_optional_truthy cfg.event_relayer_address := by
    simp only [build_constructor_calldata, encode_optional_truthy]
    cases cfg.game_registry_address <;> cases cfg.event_relayer_address <;>
      simp [List.append_assoc]
  refine ⟨hmain, ?_, ?_⟩
  · intro h1 h2
    refine ⟨encode_bytearray cfg.name ++ encode_bytearray cfg.symbol
      ++ encode_bytearray cfg.base_uri
      ++ [cfg.royalty_receiver] ++ [intDec cfg.royalty_fraction], ?_⟩
    rw [hmain, hfalsy _ h1, hfalsy _ h2]
    simp [List.append_assoc]
  · intro a hga ha h2
    refine ⟨encode_bytearray cfg.name ++ encode_bytearray cfg.symbol
      ++ encode_bytearray cfg.base_uri
      ++ [cfg.royalty_receiver] ++ [intDec cfg.royalty_fraction], ?_⟩
    rw [hmain, hga, htruthy a ha, hfalsy _ h2]
    simp [List.append_assoc]

/-- C5 amended witness: registry present with relayer absent, and both
optionals absent. -/
theorem C5_amended_witness :
    (∃ pre, (build_constructor_calldata
        ⟨[], [], [], "0xr", 7, some "0xg", none, "0x1", "0x2", "p", 0, true⟩).2 =
      pre ++ ["0", "0xg", "1"]) ∧
    (∃ pre, (build_constructor_calldata
        ⟨[], [], [], "0xr", 7, none, none, "0x1", "0x2", "p", 0, true⟩).2 =
      pre ++ ["1", "1"]) :=
  ⟨(C5_amended _).2.2 "0xg" rfl (by decide) rfl,
    (C5_amended _).2.1 rfl rfl⟩

/-- C6: the reported length from build_constructor_calldata equals the
literal count of the words in the returned sequence, for every record. -/
theorem C6_length_eq_count (cfg : DeploymentConfig) :
    (build_constructor_calldata cfg).1 = (build_constructor_calldata cfg).2.length := rfl

/-- C7: the UDC word sequence is exactly the 4 header words — class hash,
str(salt), unique flag (token 1 when unique else 0), str(calldata length) —
followed by the constructor calldata words, and the 4th header word denotes
exactly the length returned by build_constructor_calldata. -/
theorem C7_envelope_header (cfg : DeploymentConfig) :
    (udc_calldata cfg).take 4 =
      [cfg.class_hash, intDec cfg.salt, if cfg.unique then "1" else "0",
        natDec (build_constructor_calldata cfg).1] ∧
    (udc_calldata cfg).drop 4 = (build_constructor_calldata cfg).2 ∧
    tokenNat ((udc_calldata cfg).getD 3 "") = (build_constructor_calldata cfg).1 := by
  refine ⟨rfl, rfl, ?_⟩
  show tokenNat (natDec (build_constructor_calldata cfg).1) = _
  exact tokenNat_natDec _

/-- C8: both operations always return a result for every well-typed input:
the embedding is total, mirroring that the script computes them with pure
list and arithmetic operations that cannot raise. -/
theorem C8_total (b : List Nat) (cfg : DeploymentConfig) :
    ∃ ts : List String, ∃ n : Nat, ∃ ws : List String,
      encode_bytearray b = ts ∧ build_constructor_calldata cfg = (n, ws) :=
  ⟨encode_bytearray b, (build_constructor_calldata cfg).1,
    (build_constructor_calldata cfg).2, rfl, rfl⟩

/-- C9: determinism — equal inputs yield equal outputs; both operations are
modelled as pure functions of their inputs alone, matching the script code,
which reads and writes no state outside its own locals. -/
theorem C9_deterministic (b1 b2 : List Nat) (c1 c2 : DeploymentConfig)
    (hb : b1 = b2) (hc : c1 = c2) :
    encode_bytearray b1 = encode_bytearray b2 ∧
      build_constructor_calldata c1 = build_constructor_calldata c2 := by
  subst hb
  subst hc
  exact ⟨rfl, rfl⟩

/-- C9 witness at concrete equal inputs. -/
theorem C9_deterministic_witness :
    ([104] : List Nat) = [104] ∧
      (encode_bytearray [104] = encode_bytearray [104] ∧
        build_constructor_calldata
            ⟨[], [], [], "0xr", 1, none, none, "0x1", "0x2", "p", 0, true⟩ =
          build_constructor_calldata
            ⟨[], [], [], "0xr", 1, none, none, "0x1", "0x2", "p", 0, true⟩) :=
  ⟨rfl, C9_deterministic [104] [104] _ _ rfl rfl⟩

/-- C10: presence of an optional address is decided by string truthiness,
not nullness: in a record whose game_registry_address (or, independently,
whose event_relayer_address) is the empty string — a non-null value — that
field is encoded as absent, emitting the single discriminant token 1 with
no address word, whatever the other optional field holds. -/
theorem C10_empty_string_absent (cfg : DeploymentConfig) :
    (cfg.game_registry_address = some "" →
      (build_constructor_calldata cfg).2 =
        encode_bytearray cfg.name ++ encode_bytearray cfg.symbol
          ++ encode_bytearray cfg.base_uri
          ++ [cfg.royalty_receiver, intDec cfg.royalty_fraction]
          ++ ["1"]
          ++ encode_optional_truthy cfg.event_relayer_address) ∧
    (cfg.event_relayer_address = some "" →
      (build_constructor_calldata cfg).2 =
        encode_bytearray cfg.name ++ encode_bytearray cfg.symbol
          ++ encode_bytearray cfg.base_uri
          ++ [cfg.royalty_receiver, intDec cfg.royalty_fraction]
          ++ encode_optional_truthy cfg.game_registry_address
          ++ ["1"]) := by
  constructor
  · intro h1
    simp only [build_constructor_calldata, h1, encode_optional_truthy]
    cases cfg.event_relayer_address <;> simp [List.append_assoc]
  · intro h2
    simp only [build_constructor_calldata, h2, encode_optional_truthy]
    cases cfg.game_registry_address <;> simp [List.append_assoc]

/-- C10 witness at two concrete records where exactly one optional field is
the empty string: registry empty with relayer present, and relayer empty
with registry null. -/
theorem C10_empty_string_absent_witness :
    ((build_constructor_calldata
        ⟨[104], [], [], "0xr", 5, some "", some "0xe", "0x1", "0x2", "p", 0, true⟩).2 =
      encode_bytearray [104] ++ encode_bytearray [] ++ encode_bytearray []
        ++ ["0xr", intDec 5] ++ ["1"] ++ encode_optional_truthy (some "0xe")) ∧
    ((build_constructor_calldata
        ⟨[104], [], [], "0xr", 5, none, some "", "0x1", "0x2", "p", 0, true⟩).2 =
      encode_bytearray [104] ++ encode_bytearray [] ++ encode_bytearray []
        ++ ["0xr", intDec 5] ++ encode_optional_truthy none ++ ["1"]) :=
  ⟨(C10_empty_string_absent _).1 rfl, (C10_empty_string_absent _).2 rfl⟩
